import Mathlib

/-!
Verification of the MWIS (maximum weighted independent set) demo core of the
shorfin repository: the graph generator `MWISSolver.createGraph` and the greedy
heuristic `MWISSolver.findMWISSolution` from the front-end JavaScript.

Modelling conventions:
* JavaScript numbers are modelled as rationals (`ℚ`); all arithmetic appearing
  in the claims is exact.
* `Math.random()` is modelled as an injected stream `r : Nat → ℚ` of the
  successive values returned by the generator; the contract of `Math.random()`
  is the hypothesis `∀ i, 0 ≤ r i ∧ r i < 1`.  Calls are numbered from 0 at
  the start of `createGraph`: node `i` consumes calls `3*i`, `3*i+1`, `3*i+2`
  (for `x`, `y`, `weight`), and edge generation consumes the calls from `3*n`
  on, in program order.
* `Array.prototype.sort` with the comparator `(a, b) => b.score - a.score` is
  modelled as the stable `List.mergeSort` with the order
  `le a b := b.score ≤ a.score` (a sorts before b exactly when the comparator
  is nonpositive; ties keep the original order, as a stable sort does).
* The JavaScript `Set` objects `selected` and `conflicts` are modelled as
  lists: `selected` in insertion order (the ids pushed are pairwise distinct,
  so plain append agrees with `Set.add`), `conflicts` through `List.insert`
  (membership is all that is ever queried).
-/

namespace Shorfin

/-- A node as built by `createGraph`: `{id, x, y, weight, radius}`. -/
structure Node where
  id : Nat
  x : ℚ
  y : ℚ
  weight : ℚ
  radius : ℚ
deriving Repr, DecidableEq

/-- The graph value `{nodes, edges}` returned by `createGraph`. -/
structure Graph where
  nodes : List Node
  edges : List (Nat × Nat)
deriving Repr, DecidableEq

/-- One entry of the `nodeScores` array of `findMWISSolution`. -/
structure NodeScore where
  id : Nat
  score : ℚ
deriving Repr, DecidableEq

/-- The JS statement `degrees[i]++`: a `Set`-free array update.  Out-of-range
indices leave the list unchanged (the JS code writes `NaN` beyond the end of
the array, which no later read at a valid index ever observes). -/
def bumpAt (d : List Nat) (i : Nat) : List Nat :=
  d.set i (d.getD i 0 + 1)

/-- The degree array of `findMWISSolution` (and `calculateSymmetryScore`):
`degrees = new Array(nodes.length).fill(0)` followed by
`edges.forEach(([u, v]) => { degrees[u]++; degrees[v]++; })`. -/
def degreesList (g : Graph) : List Nat :=
  g.edges.foldl (fun d e => bumpAt (bumpAt d e.1) e.2)
    (List.replicate g.nodes.length 0)

/-- The `nodeScores` array: `nodes.map((node, i) => ({ id: i,
score: node.weight / (degrees[i] + 1) }))`. -/
def nodeScores (g : Graph) : List NodeScore :=
  g.nodes.enum.map (fun p =>
    { id := p.1, score := p.2.weight / (((degreesList g).getD p.1 0 : ℚ) + 1) })

/-- The comparator `(a, b) => b.score - a.score`: `a` sorts no later than `b`
exactly when the comparator value is nonpositive. -/
def scoreOrder (a b : NodeScore) : Bool :=
  decide (b.score ≤ a.score)

/-- The array `nodeScores` after `nodeScores.sort((a, b) => b.score - a.score)`
(a stable sort, descending by score). -/
def sortedScores (g : Graph) : List NodeScore :=
  (nodeScores g).mergeSort scoreOrder

/-- The inner loop marking the neighbours of the freshly selected node `id`:
`this.graph.edges.forEach(([u, v]) => { if (u === id) conflicts.add(v);
if (v === id) conflicts.add(u); })`. -/
def conflictAll (edges : List (Nat × Nat)) (id : Nat) (conf : List Nat) : List Nat :=
  edges.foldl (fun c e =>
    let c1 := if e.1 = id then c.insert e.2 else c
    if e.2 = id then c1.insert e.1 else c1) conf

/-- One iteration of the greedy loop `nodeScores.forEach(({ id }) => ...)`
acting on the state `(selected, conflicts)`. -/
def selStep (edges : List (Nat × Nat)) (st : List Nat × List Nat)
    (ns : NodeScore) : List Nat × List Nat :=
  if ns.id ∈ st.2 then st
  else (st.1 ++ [ns.id], conflictAll edges ns.id st.2)

/-- `MWISSolver.findMWISSolution(algorithm)`: the greedy heuristic.  The
`algorithm` argument is accepted and ignored, exactly as in the source. -/
def findMWISSolution (g : Graph) (algorithm : String) : List Nat :=
  ((sortedScores g).foldl (selStep g.edges) ([], [])).1

/-- `MWISSolver.calculateTotalWeight(solution)`:
`solution.reduce((sum, nodeId) => sum + this.graph.nodes[nodeId].weight, 0)`.
An out-of-range `nodeId` is a JS `TypeError`; the default node (weight 0) below
is never reached on the in-range solutions this function is applied to. -/
def calculateTotalWeight (g : Graph) (solution : List Nat) : ℚ :=
  solution.foldl (fun sum nodeId =>
    sum + (g.nodes.getD nodeId { id := 0, x := 0, y := 0, weight := 0, radius := 0 }).weight) 0

/-- The node-generation loop of `createGraph`: node `i` draws `x`, `y`,
`weight` from the three consecutive `Math.random()` calls `3*i`, `3*i+1`,
`3*i+2`; `W` and `H` are `canvas.width` and `canvas.height`. -/
def genNodes (W H : ℚ) (r : Nat → ℚ) (n : Nat) : List Node :=
  (List.range n).map (fun i =>
    { id := i
      x := r (3 * i) * (W - 100) + 50
      y := r (3 * i + 1) * (H - 100) + 50
      weight := r (3 * i + 2) * 2 + 1/2
      radius := 20 })

/-- The `regular` branch of edge generation: `k = 3`, and for each node `i`
and `j = 1..k` the edge `[i, (i + j) % n]` is pushed. -/
def regularEdges (n : Nat) : List (Nat × Nat) :=
  (List.range n).flatMap (fun i =>
    (List.range 3).map (fun j => (i, (i + (j + 1)) % n)))

/-- The unordered pairs `(i, j)`, `i < j`, in the iteration order of the
Erdős–Rényi double loop. -/
def erPairs (n : Nat) : List (Nat × Nat) :=
  (List.range n).flatMap (fun i =>
    ((List.range n).filter (fun j => i < j)).map (fun j => (i, j)))

/-- The `random` (Erdős–Rényi) branch: the `k`-th pair in iteration order
consumes the `Math.random()` call numbered `3*n + k` and is kept when that
value is `< p`. -/
def erEdges (r : Nat → ℚ) (p : ℚ) (n : Nat) : List (Nat × Nat) :=
  (erPairs n).enum.filterMap (fun ke =>
    if r (3 * n + ke.1) < p then some ke.2 else none)

/-- The degree array recomputed at the start of each preferential-attachment
step for node `i`: `new Array(i).fill(0)` followed by
`edges.forEach(([u, v]) => { if (u < i) degrees[u]++; if (v < i) degrees[v]++; })`. -/
def degreesUpTo (i : Nat) (edges : List (Nat × Nat)) : List Nat :=
  edges.foldl (fun d e =>
    let d1 := if e.1 < i then bumpAt d e.1 else d
    if e.2 < i then bumpAt d1 e.2 else d1) (List.replicate i 0)

/-- The weighted scan `let selected = 0; while (r > degrees[selected])
{ r -= degrees[selected]; selected++; }` (reading past the end of the array
stops the JS loop, matching the value `l.length` returned here). -/
def pickIndex : List Nat → ℚ → Nat
  | [], _ => 0
  | d :: ds, rr => if rr > (d : ℚ) then pickIndex ds (rr - (d : ℚ)) + 1 else 0

/-- One preferential-attachment step of the `scale-free` branch for node `i`:
degrees and their total are computed once, then `m = 2` edges are pushed, the
`j`-th of which consumes the `Math.random()` call numbered
`3*n + 2*(i - 3) + j`. -/
def sfStep (r : Nat → ℚ) (n : Nat) (edges : List (Nat × Nat)) (i : Nat) :
    List (Nat × Nat) :=
  let degs := degreesUpTo i edges
  let total : ℚ := (degs.sum : Nat)
  let e1 := edges ++ [(i, pickIndex degs (r (3 * n + 2 * (i - 3)) * total))]
  e1 ++ [(i, pickIndex degs (r (3 * n + 2 * (i - 3) + 1) * total))]

/-- The `scale-free` (Barabási–Albert) branch: the seed triangle on nodes
`0, 1, 2` (`m0 = 3`, pushed unconditionally, whatever `n` is), then one
`sfStep` for each remaining node `i = m0 .. n-1`. -/
def sfEdges (r : Nat → ℚ) (n : Nat) : List (Nat × Nat) :=
  (List.range' 3 (n - 3)).foldl (sfStep r n) [(0, 1), (0, 2), (1, 2)]

/-- `MWISSolver.createGraph(n, p, type)`.  The `type` string is compared
against `'regular'` and `'scale-free'`; anything else falls through to the
Erdős–Rényi branch.  There is no validation of `n` or `p` anywhere in the
source: the function always returns a graph. -/
def createGraph (W H : ℚ) (r : Nat → ℚ) (n : Nat) (p : ℚ) (type : String) :
    Graph :=
  { nodes := genNodes W H r n
    edges :=
      if type = "regular" then regularEdges n
      else if type = "scale-free" then sfEdges r n
      else erEdges r p n }

/-- The 4-node path graph of the spec's concrete scenario: edges
`{(0,1), (1,2), (2,3)}` and weights `[1.0, 5.0, 1.0, 1.0]` (positions are
rendering metadata and are set to 0 here). -/
def pathGraph : Graph :=
  { nodes :=
      [ { id := 0, x := 0, y := 0, weight := 1, radius := 20 }
      , { id := 1, x := 0, y := 0, weight := 5, radius := 20 }
      , { id := 2, x := 0, y := 0, weight := 1, radius := 20 }
      , { id := 3, x := 0, y := 0, weight := 1, radius := 20 } ]
    edges := [(0, 1), (1, 2), (2, 3)] }

/-- A solver state holding the instance fields of `MWISSolver` that the
algorithmic core touches: `this.graph` and `this.solution`. -/
structure MWISSolverState where
  graph : Graph
  solution : Option (List Nat)
deriving Repr, DecidableEq

/-- The call `this.findMWISSolution(algorithm)` as a state transformer.  The
method body only declares local `const`s and reads `this.graph`; it assigns no
instance field, so the state passes through unchanged and the returned value is
`findMWISSolution` of the stored graph. -/
def findMWISSolutionRun (s : MWISSolverState) (algorithm : String) :
    MWISSolverState × List Nat :=
  (s, findMWISSolution s.graph algorithm)

end Shorfin

namespace Shorfin

/-! ### Claim C2: the concrete path-graph scenario -/

/-- Claim C2: on the 4-node path graph with edges `{(0,1),(1,2),(2,3)}` and
weights `[1.0, 5.0, 1.0, 1.0]`, the heuristic returns exactly the selection
`{1, 3}` (in insertion order, `[1, 3]`), of total weight `6.0`, whatever the
(ignored) `algorithm` argument is. -/
theorem mwis_pathGraph_selection : ∀ algorithm : String,
    findMWISSolution pathGraph algorithm = [1, 3] ∧
    calculateTotalWeight pathGraph [1, 3] = 6 := by
  intro algorithm
  have hns : nodeScores pathGraph = [⟨0, 1/2⟩, ⟨1, 5/3⟩, ⟨2, 1/3⟩, ⟨3, 1/2⟩] := by
    simp [nodeScores, pathGraph, degreesList, bumpAt, List.enum, List.foldl,
      List.replicate, List.getD]
    norm_num
  have hss : sortedScores pathGraph = [⟨1, 5/3⟩, ⟨0, 1/2⟩, ⟨3, 1/2⟩, ⟨2, 1/3⟩] := by
    rw [sortedScores, hns]
    norm_num [List.mergeSort, List.merge, scoreOrder, decide_eq_true_eq]
  constructor
  · rw [findMWISSolution, hss]
    simp [selStep, conflictAll, pathGraph, List.foldl, List.insert]
  · simp [calculateTotalWeight, pathGraph, List.foldl, List.getD]
    norm_num

/-- Witness for C2 at the concrete algorithm string used by the UI default. -/
theorem mwis_pathGraph_selection_witness :
    findMWISSolution pathGraph "classical" = [1, 3] ∧
    calculateTotalWeight pathGraph [1, 3] = 6 :=
  mwis_pathGraph_selection "classical"

/-! ### Claim C3: validity of generated edges -/

/-- Counterexample to claim C3 as stated: with one node, the `regular`
topology pushes the self-loop `(0, (0 + j) % 1) = (0, 0)` three times, so not
every generated edge has distinct endpoints. -/
theorem createGraph_valid_counterexample :
    ¬(∀ e ∈ (createGraph 800 400 (fun _ => 0) 1 0 "regular").edges,
        e.1 < 1 ∧ e.2 < 1 ∧ e.1 ≠ e.2) := by decide

/-! ### Claim C4: node-weight bounds -/

/-- Counterexample to claim C4 as stated: `Math.random() * 2 + 0.5` with a
draw of `3/4` yields the weight `3/4 * 2 + 1/2 = 2`, which is not `< 2.0`;
the generated weights are not confined to `[0.5, 2.0)`. -/
theorem nodeWeight_counterexample :
    ∃ nd ∈ (createGraph 800 400 (fun _ => 3/4) 1 0 "random").nodes,
      ¬(nd.weight < 2) := by
  refine ⟨{ id := 0, x := 575, y := 275, weight := 2, radius := 20 }, ?_, by norm_num⟩
  simp [createGraph, genNodes, List.range_succ]
  norm_num

/-- Amended claim C4: every generated node weight lies in `[0.5, 2.5)` (the
code computes `Math.random() * 2 + 0.5` with `Math.random()` in `[0, 1)`). -/
theorem nodeWeight_bounds (W H : ℚ) (r : Nat → ℚ) (n : Nat) (p : ℚ)
    (ty : String) (hr : ∀ i, 0 ≤ r i ∧ r i < 1) :
    ∀ nd ∈ (createGraph W H r n p ty).nodes, 1/2 ≤ nd.weight ∧ nd.weight < 5/2 := by
  intro nd hnd
  have hnodes : (createGraph W H r n p ty).nodes = genNodes W H r n := rfl
  rw [hnodes, genNodes] at hnd
  simp [List.mem_map, List.mem_range] at hnd
  obtain ⟨i, _, rfl⟩ := hnd
  obtain ⟨h0, h1⟩ := hr (3 * i + 2)
  constructor
  · simp only []
    linarith
  · simp only []
    linarith

/-- Witness for the amended C4: the node generated from draws of `1/2` has
weight `3/2`, inside `[1/2, 5/2)`. -/
theorem nodeWeight_bounds_witness :
    1/2 ≤ (Node.mk 0 400 200 (3/2) 20).weight ∧
    (Node.mk 0 400 200 (3/2) 20).weight < 5/2 :=
  nodeWeight_bounds 800 400 (fun _ => 1/2) 1 0 "random" (fun _ => by norm_num)
    (Node.mk 0 400 200 (3/2) 20)
    (by simp [createGraph, genNodes, List.range_succ]; norm_num)

/-! ### Claim C5: no rejection of out-of-range probabilities -/

/-- Claim C5 is contradicted by the code: `createGraph` performs no validation
of `p` at all.  At the out-of-range probability `p = 2` (with two nodes under
the `random` topology) it silently returns the complete graph on the two nodes
instead of failing with an `InvalidArgument` error. -/
theorem createGraph_no_probability_check :
    (createGraph 800 400 (fun _ => 1/2) 2 2 "random").edges = [(0, 1)] := by
  have h : erPairs 2 = [(0, 1)] := by decide
  simp [createGraph, erEdges, h, List.enum, List.enumFrom, List.filterMap_cons]
  norm_num

end Shorfin
namespace Shorfin

/-! ### Greedy-loop invariants -/

/-- Membership in the conflict set after marking the neighbours of `id`:
exactly the old conflicts plus the endpoints opposite `id` on edges
incident to `id`. -/
theorem mem_conflictStep (e : Nat × Nat) (id : Nat) (conf : List Nat) (c : Nat) :
    (c ∈ if e.2 = id then
           (if e.1 = id then conf.insert e.2 else conf).insert e.1
         else (if e.1 = id then conf.insert e.2 else conf)) ↔
      c ∈ conf ∨ (e.1 = id ∧ c = e.2) ∨ (e.2 = id ∧ c = e.1) := by
  by_cases h1 : e.1 = id <;> by_cases h2 : e.2 = id <;>
    simp [h1, h2, List.mem_insert_iff] <;> tauto

theorem mem_conflictAll (edges : List (Nat × Nat)) (id : Nat) :
    ∀ (conf : List Nat) (c : Nat),
      c ∈ conflictAll edges id conf ↔
        c ∈ conf ∨ ∃ e ∈ edges, (e.1 = id ∧ c = e.2) ∨ (e.2 = id ∧ c = e.1) := by
  induction edges with
  | nil => intro conf c; simp [conflictAll]
  | cons e es ih =>
      intro conf c
      have hstep : conflictAll (e :: es) id conf
          = conflictAll es id
            (if e.2 = id then
               (if e.1 = id then conf.insert e.2 else conf).insert e.1
             else (if e.1 = id then conf.insert e.2 else conf)) := rfl
      rw [hstep, ih, mem_conflictStep]
      simp only [List.mem_cons]
      constructor
      · rintro ((h | h) | ⟨f, hf, hP⟩)
        · exact Or.inl h
        · exact Or.inr ⟨e, Or.inl rfl, h⟩
        · exact Or.inr ⟨f, Or.inr hf, hP⟩
      · rintro (h | ⟨f, (rfl | hf), hP⟩)
        · exact Or.inl (Or.inl h)
        · exact Or.inl (Or.inr hP)
        · exact Or.inr ⟨f, hf, hP⟩

/-- The conflict set only grows. -/
theorem subset_conflictAll (edges : List (Nat × Nat)) (id : Nat)
    (conf : List Nat) : conf ⊆ conflictAll edges id conf :=
  fun _ hc => (mem_conflictAll edges id conf _).mpr (Or.inl hc)

/-- Both components of the greedy state only grow along the fold. -/
theorem selFold_mono (edges : List (Nat × Nat)) :
    ∀ (l : List NodeScore) (st : List Nat × List Nat),
      st.1 ⊆ (l.foldl (selStep edges) st).1 ∧
      st.2 ⊆ (l.foldl (selStep edges) st).2 := by
  intro l
  induction l with
  | nil => intro st; exact ⟨fun _ h => h, fun _ h => h⟩
  | cons ns l ih =>
      intro st
      have hmono : st.1 ⊆ (selStep edges st ns).1 ∧
          st.2 ⊆ (selStep edges st ns).2 := by
        rw [selStep]
        split
        · exact ⟨fun _ h => h, fun _ h => h⟩
        · exact ⟨fun a ha => List.mem_append_left _ ha,
            subset_conflictAll edges ns.id st.2⟩
      have := ih (selStep edges st ns)
      exact ⟨fun a ha => this.1 (hmono.1 ha), fun a ha => this.2 (hmono.2 ha)⟩

/-- Greedy invariant: every neighbour of a selected node is conflicted, and no
two distinct adjacent nodes are both selected.  Preserved along the whole
fold. -/
theorem selFold_indep (edges : List (Nat × Nat)) :
    ∀ (l : List NodeScore) (st : List Nat × List Nat),
      (∀ a ∈ st.1, ∀ e ∈ edges,
          (e.1 = a → e.2 ∈ st.2) ∧ (e.2 = a → e.1 ∈ st.2)) →
      (∀ u v, (u, v) ∈ edges → u ≠ v → u ∈ st.1 → v ∈ st.1 → False) →
      (∀ a ∈ (l.foldl (selStep edges) st).1, ∀ e ∈ edges,
          (e.1 = a → e.2 ∈ (l.foldl (selStep edges) st).2) ∧
          (e.2 = a → e.1 ∈ (l.foldl (selStep edges) st).2)) ∧
      (∀ u v, (u, v) ∈ edges → u ≠ v →
          u ∈ (l.foldl (selStep edges) st).1 →
          v ∈ (l.foldl (selStep edges) st).1 → False) := by
  intro l
  induction l with
  | nil => intro st h1 h2; exact ⟨h1, h2⟩
  | cons ns l ih =>
      intro st h1 h2
      rw [List.foldl_cons]
      by_cases hc : ns.id ∈ st.2
      · have hst : selStep edges st ns = st := by rw [selStep, if_pos hc]
        rw [hst]; exact ih st h1 h2
      · have hst : selStep edges st ns
            = (st.1 ++ [ns.id], conflictAll edges ns.id st.2) := by
          rw [selStep, if_neg hc]
        rw [hst]
        apply ih
        · intro a ha e he
          rcases List.mem_append.mp ha with ha | ha
          · have := h1 a ha e he
            exact ⟨fun h => subset_conflictAll edges ns.id st.2 (this.1 h),
                   fun h => subset_conflictAll edges ns.id st.2 (this.2 h)⟩
          · have ha : a = ns.id := by simpa using ha
            subst ha
            constructor
            · intro h
              exact (mem_conflictAll edges ns.id st.2 e.2).mpr
                (Or.inr ⟨e, he, Or.inl ⟨h, rfl⟩⟩)
            · intro h
              exact (mem_conflictAll edges ns.id st.2 e.1).mpr
                (Or.inr ⟨e, he, Or.inr ⟨h, rfl⟩⟩)
        · intro u v huv hne hu hv
          rcases List.mem_append.mp hu with hu | hu <;>
            rcases List.mem_append.mp hv with hv | hv
          · exact h2 u v huv hne hu hv
          · have hv : v = ns.id := by simpa using hv
            have := (h1 u hu (u, v) huv).1 rfl
            exact hc (hv ▸ this)
          · have hu : u = ns.id := by simpa using hu
            have := (h1 v hv (u, v) huv).2 rfl
            exact hc (hu ▸ this)
          · have hu : u = ns.id := by simpa using hu
            have hv : v = ns.id := by simpa using hv
            exact hne (hu.trans hv.symm)

/-- Claim C1: the returned selection is an independent set — no edge of the
graph with distinct endpoints has both endpoints selected (edges of the data
model have distinct endpoints; a self-loop relates a node only to itself). -/
theorem mwis_selection_independent (g : Graph) (algorithm : String)
    (u v : Nat) (huv : (u, v) ∈ g.edges) (hne : u ≠ v) :
    ¬(u ∈ findMWISSolution g algorithm ∧ v ∈ findMWISSolution g algorithm) := by
  rintro ⟨hu, hv⟩
  have h := (selFold_indep g.edges (sortedScores g) ([], [])
    (by intro a ha; simp at ha) (by intro u v _ _ hu; simp at hu)).2
  exact h u v huv hne hu hv

/-- Witness for C1 on the concrete path graph: edge `(0,1)` has distinct
endpoints, and indeed 0 and 1 are not both selected. -/
theorem mwis_selection_independent_witness :
    ¬(0 ∈ findMWISSolution pathGraph "classical" ∧
      1 ∈ findMWISSolution pathGraph "classical") :=
  mwis_selection_independent pathGraph "classical" 0 1
    (by simp [pathGraph]) (by decide)

end Shorfin

namespace Shorfin

/-- The first components of the node-score array are exactly the node indices
`0 .. n-1`, in order. -/
theorem nodeScores_map_id (g : Graph) :
    (nodeScores g).map NodeScore.id = List.range g.nodes.length := by
  rw [nodeScores, List.map_map]
  exact List.enum_map_fst g.nodes

/-- Every conflicted node is adjacent to some selected node; preserved along
the greedy fold. -/
theorem selFold_conf_adj (edges : List (Nat × Nat)) :
    ∀ (l : List NodeScore) (st : List Nat × List Nat),
      (∀ c ∈ st.2, ∃ a ∈ st.1, (a, c) ∈ edges ∨ (c, a) ∈ edges) →
      ∀ c ∈ (l.foldl (selStep edges) st).2,
        ∃ a ∈ (l.foldl (selStep edges) st).1, (a, c) ∈ edges ∨ (c, a) ∈ edges := by
  intro l
  induction l with
  | nil => intro st h; exact h
  | cons ns l ih =>
      intro st h
      rw [List.foldl_cons]
      apply ih
      by_cases hc : ns.id ∈ st.2
      · rw [selStep, if_pos hc]; exact h
      · rw [selStep, if_neg hc]
        intro c hcmem
        rcases (mem_conflictAll edges ns.id st.2 c).mp hcmem with hold | ⟨e, he, hP⟩
        · obtain ⟨a, ha, hadj⟩ := h c hold
          exact ⟨a, List.mem_append_left _ ha, hadj⟩
        · refine ⟨ns.id, List.mem_append_right _ (by simp), ?_⟩
          obtain ⟨e1, e2⟩ := e
          rcases hP with ⟨h1, h2⟩ | ⟨h1, h2⟩
          · subst h1; subst h2; exact Or.inl he
          · subst h1; subst h2; exact Or.inr he

/-- Every processed node ends up selected or conflicted. -/
theorem selFold_coverage (edges : List (Nat × Nat)) :
    ∀ (l : List NodeScore) (st : List Nat × List Nat), ∀ ns ∈ l,
      ns.id ∈ (l.foldl (selStep edges) st).1 ∨
      ns.id ∈ (l.foldl (selStep edges) st).2 := by
  intro l
  induction l with
  | nil => intro st ns h; simp at h
  | cons ns0 l ih =>
      intro st ns h
      rw [List.foldl_cons]
      rcases List.mem_cons.mp h with rfl | h
      · have hin : ns.id ∈ (selStep edges st ns).1 ∨
            ns.id ∈ (selStep edges st ns).2 := by
          by_cases hc : ns.id ∈ st.2
          · rw [selStep, if_pos hc]; exact Or.inr hc
          · rw [selStep, if_neg hc]; exact Or.inl (by simp)
        rcases hin with hin | hin
        · exact Or.inl ((selFold_mono edges l _).1 hin)
        · exact Or.inr ((selFold_mono edges l _).2 hin)
      · exact ih (selStep edges st ns0) ns h

/-- Claim C10: the selection is a maximal independent set — on a graph whose
edges are in range, every unselected node is adjacent to a selected one. -/
theorem mwis_selection_maximal (g : Graph) (algorithm : String)
    (hrange : ∀ e ∈ g.edges, e.1 < g.nodes.length ∧ e.2 < g.nodes.length)
    (i : Nat) (hi : i < g.nodes.length)
    (hnot : i ∉ findMWISSolution g algorithm) :
    ∃ a ∈ findMWISSolution g algorithm, (a, i) ∈ g.edges ∨ (i, a) ∈ g.edges := by
  have hmem : ∃ ns ∈ sortedScores g, ns.id = i := by
    have : i ∈ (nodeScores g).map NodeScore.id := by
      rw [nodeScores_map_id]; exact List.mem_range.mpr hi
    obtain ⟨ns, hns, hid⟩ := List.mem_map.mp this
    exact ⟨ns, List.mem_mergeSort.mpr hns, hid⟩
  obtain ⟨ns, hns, hid⟩ := hmem
  have hcov := selFold_coverage g.edges (sortedScores g) ([], []) ns hns
  rw [hid] at hcov
  rcases hcov with hsel | hconf
  · exact absurd hsel hnot
  · exact selFold_conf_adj g.edges (sortedScores g) ([], [])
      (by intro c hc; simp at hc) i hconf

/-- A 2-node graph with a single edge and unit weights, for witnesses. -/
def twoGraph : Graph :=
  { nodes :=
      [ { id := 0, x := 0, y := 0, weight := 1, radius := 20 }
      , { id := 1, x := 0, y := 0, weight := 1, radius := 20 } ]
    edges := [(0, 1)] }

/-- The heuristic on `twoGraph`: both scores tie at `1/2`, the stable sort
keeps the id order, node 0 is selected and node 1 conflicted. -/
theorem twoGraph_selection : findMWISSolution twoGraph "classical" = [0] := by
  have hns : nodeScores twoGraph = [⟨0, 1/2⟩, ⟨1, 1/2⟩] := by
    simp [nodeScores, twoGraph, degreesList, bumpAt, List.enum, List.foldl,
      List.replicate, List.getD]
    norm_num
  have hss : sortedScores twoGraph = [⟨0, 1/2⟩, ⟨1, 1/2⟩] := by
    rw [sortedScores, hns]
    norm_num [List.mergeSort, List.merge, scoreOrder, decide_eq_true_eq]
  rw [findMWISSolution, hss]
  simp [selStep, conflictAll, twoGraph, List.foldl, List.insert]

/-- Witness for C10 on `twoGraph`: node 1 is unselected and is adjacent to
the selected node 0. -/
theorem mwis_selection_maximal_witness :
    ∃ a ∈ findMWISSolution twoGraph "classical",
      (a, 1) ∈ twoGraph.edges ∨ (1, a) ∈ twoGraph.edges :=
  mwis_selection_maximal twoGraph "classical"
    (by decide) 1 (by decide)
    (by rw [twoGraph_selection]; decide)

end Shorfin

namespace Shorfin

/-- With no edges the conflict set stays empty and the greedy fold selects
every processed node, in order. -/
theorem selFold_no_edges :
    ∀ (l : List NodeScore) (sel : List Nat),
      l.foldl (selStep []) (sel, []) = (sel ++ l.map NodeScore.id, []) := by
  intro l
  induction l with
  | nil => intro sel; simp
  | cons ns l ih =>
      intro sel
      rw [List.foldl_cons]
      have hstep : selStep [] (sel, []) ns = (sel ++ [ns.id], []) := by
        rw [selStep]
        simp [conflictAll]
      rw [hstep, ih]
      simp

/-- Claim C7: on a graph with zero edges the heuristic selects every node
(the members of the selection are exactly the indices below the node count);
in particular the empty graph yields the empty selection. -/
theorem mwis_no_edges_selects_all (g : Graph) (algorithm : String)
    (h : g.edges = []) :
    (∀ i, i ∈ findMWISSolution g algorithm ↔ i < g.nodes.length) ∧
    (g.nodes = [] → findMWISSolution g algorithm = []) := by
  have hsel : findMWISSolution g algorithm = (sortedScores g).map NodeScore.id := by
    rw [findMWISSolution, h, selFold_no_edges]
    simp
  constructor
  · intro i
    rw [hsel]
    constructor
    · intro hi
      obtain ⟨ns, hns, hid⟩ := List.mem_map.mp hi
      have : ns ∈ nodeScores g := List.mem_mergeSort.mp hns
      have : ns.id ∈ (nodeScores g).map NodeScore.id := List.mem_map_of_mem _ this
      rw [nodeScores_map_id] at this
      exact hid ▸ List.mem_range.mp this
    · intro hi
      have : i ∈ (nodeScores g).map NodeScore.id := by
        rw [nodeScores_map_id]; exact List.mem_range.mpr hi
      obtain ⟨ns, hns, hid⟩ := List.mem_map.mp this
      exact List.mem_map.mpr ⟨ns, List.mem_mergeSort.mpr hns, hid⟩
  · intro hn
    rw [hsel, sortedScores]
    have : nodeScores g = [] := by simp [nodeScores, hn]
    rw [this]
    simp

/-- Witness for C7: a 2-node edgeless graph selects both nodes, and the empty
graph selects nothing. -/
theorem mwis_no_edges_selects_all_witness :
    (0 ∈ findMWISSolution { nodes := twoGraph.nodes, edges := [] } "classical"
      ↔ 0 < 2) ∧
    findMWISSolution { nodes := [], edges := [] } "classical" = [] :=
  ⟨by
    have h := (mwis_no_edges_selects_all
      { nodes := twoGraph.nodes, edges := [] } "classical" rfl).1 0
    simpa [twoGraph] using h,
   (mwis_no_edges_selects_all { nodes := [], edges := [] } "classical" rfl).2 rfl⟩

end Shorfin

namespace Shorfin

/-- The score comparator is transitive. -/
theorem scoreOrder_trans : ∀ a b c : NodeScore,
    scoreOrder a b = true → scoreOrder b c = true → scoreOrder a c = true := by
  intro a b c hab hbc
  simp only [scoreOrder, decide_eq_true_eq] at *
  exact le_trans hbc hab

/-- The score comparator is total. -/
theorem scoreOrder_total : ∀ a b : NodeScore,
    (scoreOrder a b || scoreOrder b a) = true := by
  intro a b
  simp only [scoreOrder, Bool.or_eq_true, decide_eq_true_eq]
  exact le_total b.score a.score

/-- The sorted score array is pairwise ordered by the comparator. -/
theorem sortedScores_pairwise (g : Graph) :
    List.Pairwise (fun a b => scoreOrder a b = true) (sortedScores g) :=
  List.sorted_mergeSort scoreOrder_trans scoreOrder_total (nodeScores g)

/-- The ids of the node-score array are pairwise increasing. -/
theorem nodeScores_pairwise_id (g : Graph) :
    List.Pairwise (fun a b => a.id < b.id) (nodeScores g) := by
  have h := List.pairwise_lt_range g.nodes.length
  rw [← nodeScores_map_id g] at h
  exact List.pairwise_map.mp h

/-- The node-score array has no duplicate ids. -/
theorem nodeScores_nodup_id (g : Graph) :
    ((nodeScores g).map NodeScore.id).Nodup := by
  rw [nodeScores_map_id]; exact List.nodup_range _

/-- In a list pairwise ordered by an asymmetric relation, any two related
members occur as a sublist pair in that order. -/
theorem pair_sublist_of_pairwise {α : Type} {R : α → α → Prop}
    (hasym : ∀ a b, R a b → R b a → False) :
    ∀ {l : List α}, List.Pairwise R l →
      ∀ {x y}, x ∈ l → y ∈ l → R x y → [x, y].Sublist l := by
  intro l
  induction l with
  | nil => intro _ x y hx; simp at hx
  | cons hd t ih =>
      intro hp x y hx hy hR
      obtain ⟨hhead, htail⟩ := List.pairwise_cons.mp hp
      by_cases hxh : x = hd
      · by_cases hyh : y = x
        · exact absurd hR (fun h => hasym _ _ (hyh ▸ h) (hyh ▸ h))
        · have hyt : y ∈ t := by
            rcases List.mem_cons.mp hy with h | h
            · exact absurd (h.trans hxh.symm) hyh
            · exact h
          exact hxh ▸ (List.singleton_sublist.mpr hyt).cons₂ hd
      · have hxt : x ∈ t := (List.mem_cons.mp hx).resolve_left hxh
        by_cases hyh : y = hd
        · exact absurd (hhead x hxt) (fun h => hasym _ _ hR (hyh ▸ h))
        · have hyt : y ∈ t := (List.mem_cons.mp hy).resolve_left hyh
          exact (ih htail hxt hyt hR).cons hd

/-- In a duplicate-free list, a sublist pair cannot occur in both orders
unless its members coincide. -/
theorem eq_of_sublist_pair_swap {α : Type} :
    ∀ {l : List α}, l.Nodup → ∀ {a b : α},
      [a, b].Sublist l → [b, a].Sublist l → a = b := by
  intro l
  induction l with
  | nil => intro _ a b h1; cases h1
  | cons x t ih =>
      intro hnd a b h1 h2
      have hx : x ∉ t := (List.nodup_cons.mp hnd).1
      have hnt : t.Nodup := (List.nodup_cons.mp hnd).2
      cases h1 with
      | cons _ h1m =>
          cases h2 with
          | cons _ h2m => exact ih hnt h1m h2m
          | cons₂ _ h2m =>
              exact absurd (h1m.subset (show x ∈ [a, x] by simp)) hx
      | cons₂ _ h1m =>
          cases h2 with
          | cons _ h2m =>
              exact absurd (h2m.subset (show x ∈ [b, x] by simp)) hx
          | cons₂ _ h2m => rfl

end Shorfin

namespace Shorfin

/-- Stability of the sort: in the sorted score array, scores descend, and
equal scores keep the original (ascending-id) order. -/
theorem sortedScores_tie_order (g : Graph) :
    List.Pairwise (fun a b : NodeScore =>
      b.score < a.score ∨ (a.score = b.score ∧ a.id < b.id)) (sortedScores g) := by
  rw [List.pairwise_iff_forall_sublist]
  intro a b hab
  have hle : b.score ≤ a.score := by
    have h := List.pairwise_iff_forall_sublist.mp (sortedScores_pairwise g) hab
    simpa [scoreOrder] using h
  rcases lt_or_eq_of_le hle with hlt | heq
  · exact Or.inl hlt
  · refine Or.inr ⟨heq.symm, ?_⟩
    have hndNS : (nodeScores g).Nodup := (nodeScores_nodup_id g).of_map
    have hndS : (sortedScores g).Nodup :=
      ((List.mergeSort_perm (nodeScores g) scoreOrder).nodup_iff).mpr hndNS
    have hamem : a ∈ nodeScores g :=
      List.mem_mergeSort.mp (hab.subset (by simp))
    have hbmem : b ∈ nodeScores g :=
      List.mem_mergeSort.mp (hab.subset (by simp))
    have hne : a ≠ b := by
      rintro rfl
      exact (List.nodup_iff_sublist.mp hndS a) hab
    have hidne : a.id ≠ b.id := fun h =>
      hne (List.inj_on_of_nodup_map (nodeScores_nodup_id g) hamem hbmem h)
    by_contra hnot
    have hba : b.id < a.id := by omega
    have hsub : [b, a].Sublist (nodeScores g) :=
      pair_sublist_of_pairwise (fun x y hxy hyx => by omega)
        (nodeScores_pairwise_id g) hbmem hamem hba
    have hple : List.Pairwise (fun x y : NodeScore => scoreOrder x y = true) [b, a] := by
      simp [List.pairwise_cons, scoreOrder, heq.ge]
    have hswap : [b, a].Sublist (sortedScores g) :=
      List.sublist_mergeSort scoreOrder_trans scoreOrder_total hple hsub
    exact hne (eq_of_sublist_pair_swap hndS hab hswap)

/-- The degree array only depends on the number of nodes and the edge list. -/
theorem degreesList_congr (g₁ g₂ : Graph)
    (hw : g₁.nodes.map Node.weight = g₂.nodes.map Node.weight)
    (he : g₁.edges = g₂.edges) : degreesList g₁ = degreesList g₂ := by
  have hlen : g₁.nodes.length = g₂.nodes.length := by
    have h := congrArg List.length hw
    simpa using h
  rw [degreesList, degreesList, hlen, he]

/-- The node-score array only depends on the weight list and the edges: it is
the weight list, enumerated, with each weight divided by its degree plus 1. -/
theorem nodeScores_eq_weights (g : Graph) :
    nodeScores g = (g.nodes.map Node.weight).enum.map (fun p =>
      { id := p.1, score := p.2 / (((degreesList g).getD p.1 0 : ℚ) + 1) }) := by
  rw [List.enum_map, List.map_map, nodeScores]
  rfl

/-- Claim C6: the heuristic is deterministic — it is a pure function of the
node weights and the edge list (in particular positions, the stored solution
and the `algorithm` string are irrelevant, and two runs on the identical graph
agree) — and score ties are broken by ascending original identifier
(first-seen-wins), as stated by `sortedScores_tie_order`. -/
theorem mwis_deterministic (g₁ g₂ : Graph) (alg₁ alg₂ : String)
    (hw : g₁.nodes.map Node.weight = g₂.nodes.map Node.weight)
    (he : g₁.edges = g₂.edges) :
    findMWISSolution g₁ alg₁ = findMWISSolution g₂ alg₂ ∧
    List.Pairwise (fun a b : NodeScore =>
      b.score < a.score ∨ (a.score = b.score ∧ a.id < b.id)) (sortedScores g₁) := by
  refine ⟨?_, sortedScores_tie_order g₁⟩
  have hns : nodeScores g₁ = nodeScores g₂ := by
    rw [nodeScores_eq_weights g₁, nodeScores_eq_weights g₂, hw,
      degreesList_congr g₁ g₂ hw he]
  rw [findMWISSolution, findMWISSolution, sortedScores, sortedScores, hns, he]

/-- Witness for C6: the same nodes and edges as `twoGraph` but with different
positions give the same selection. -/
theorem mwis_deterministic_witness :
    findMWISSolution twoGraph "classical" =
      findMWISSolution
        { nodes :=
            [ { id := 0, x := 7, y := 9, weight := 1, radius := 20 }
            , { id := 1, x := 3, y := 4, weight := 1, radius := 20 } ]
          edges := [(0, 1)] } "qaoa" ∧
    List.Pairwise (fun a b : NodeScore =>
      b.score < a.score ∨ (a.score = b.score ∧ a.id < b.id))
      (sortedScores twoGraph) :=
  mwis_deterministic twoGraph _ "classical" "qaoa" (by simp [twoGraph]) rfl

end Shorfin

namespace Shorfin

/-- Claim C9: the heuristic has no side effects — run as a state transformer
it returns the state unchanged (nodes, edges and stored solution identical),
and its value is a pure function of the stored graph: states holding the same
graph produce the same selection. -/
theorem findMWISSolutionRun_pure (s₁ s₂ : MWISSolverState) (alg : String)
    (hg : s₁.graph = s₂.graph) :
    (findMWISSolutionRun s₁ alg).1 = s₁ ∧
    (findMWISSolutionRun s₁ alg).1.graph.nodes = s₁.graph.nodes ∧
    (findMWISSolutionRun s₁ alg).1.graph.edges = s₁.graph.edges ∧
    (findMWISSolutionRun s₁ alg).2 = findMWISSolution s₁.graph alg ∧
    (findMWISSolutionRun s₁ alg).2 = (findMWISSolutionRun s₂ alg).2 := by
  refine ⟨rfl, rfl, rfl, rfl, ?_⟩
  rw [findMWISSolutionRun, findMWISSolutionRun, hg]

/-- Witness for C9 on two concrete states over `twoGraph` differing in the
stored solution. -/
theorem findMWISSolutionRun_pure_witness :
    (findMWISSolutionRun ⟨twoGraph, none⟩ "classical").1 = ⟨twoGraph, none⟩ ∧
    (findMWISSolutionRun ⟨twoGraph, none⟩ "classical").1.graph.nodes = twoGraph.nodes ∧
    (findMWISSolutionRun ⟨twoGraph, none⟩ "classical").1.graph.edges = twoGraph.edges ∧
    (findMWISSolutionRun ⟨twoGraph, none⟩ "classical").2 =
      findMWISSolution twoGraph "classical" ∧
    (findMWISSolutionRun ⟨twoGraph, none⟩ "classical").2 =
      (findMWISSolutionRun ⟨twoGraph, some [0]⟩ "classical").2 :=
  findMWISSolutionRun_pure ⟨twoGraph, none⟩ ⟨twoGraph, some [0]⟩ "classical" rfl

/-! ### Claim C8: degrees under the regular topology -/

/-- Bumping preserves the length of the degree array. -/
theorem length_bumpAt (d : List Nat) (i : Nat) :
    (bumpAt d i).length = d.length := by
  simp [bumpAt]

/-- Reading the degree array after one bump. -/
theorem getD_bumpAt (d : List Nat) (i x : Nat) (hx : x < d.length) :
    (bumpAt d i).getD x 0 = if i = x then d.getD x 0 + 1 else d.getD x 0 := by
  by_cases h : i = x
  · subst h
    rw [if_pos rfl, bumpAt, List.getD_eq_getElem?_getD, List.getD_eq_getElem?_getD,
      List.getElem?_set]
    simp [hx]
  · rw [if_neg h, bumpAt, List.getD_eq_getElem?_getD, List.getD_eq_getElem?_getD,
      List.getElem?_set]
    simp [h]

/-- Reading the degree array after the whole edge fold: the initial value plus
the number of incident edge entries at that index. -/
theorem degFold_getD :
    ∀ (edges : List (Nat × Nat)) (d : List Nat) (x : Nat), x < d.length →
      ((edges.foldl (fun d e => bumpAt (bumpAt d e.1) e.2) d).getD x 0)
        = d.getD x 0 + edges.countP (fun e => e.1 == x)
          + edges.countP (fun e => e.2 == x) := by
  intro edges
  induction edges with
  | nil => intro d x hx; simp
  | cons e es ih =>
      intro d x hx
      rw [List.foldl_cons]
      have hlen1 : x < (bumpAt d e.1).length := by rw [length_bumpAt]; exact hx
      have hlen2 : x < (bumpAt (bumpAt d e.1) e.2).length := by
        rw [length_bumpAt, length_bumpAt]; exact hx
      rw [ih _ x hlen2, getD_bumpAt _ _ _ hlen1, getD_bumpAt _ _ _ hx,
        List.countP_cons, List.countP_cons]
      by_cases h1 : e.1 = x <;> by_cases h2 : e.2 = x <;>
        simp [h1, h2] <;> omega

/-- Each node index below `n` occurs exactly 3 times as a first endpoint in
the regular edge list. -/
theorem countP_regular_fst (n x : Nat) (hx : x < n) :
    (regularEdges n).countP (fun e => e.1 == x) = 3 := by
  rw [regularEdges, List.countP_flatMap]
  have hmap : ∀ i : Nat,
      ((List.range 3).map (fun j => (i, (i + (j + 1)) % n))).countP
        (fun e => e.1 == x) = if i = x then 3 else 0 := by
    intro i
    rw [List.countP_map]
    by_cases h : i = x
    · have hfun : ((fun e : Nat × Nat => e.1 == x) ∘
          (fun j => (i, (i + (j + 1)) % n))) = fun _ => true := by
        funext j; simp [h]
      rw [hfun, List.countP_true, if_pos h]
      simp
    · have hfun : ((fun e : Nat × Nat => e.1 == x) ∘
          (fun j => (i, (i + (j + 1)) % n))) = fun _ => false := by
        funext j; simp [h]
      rw [hfun, List.countP_false, if_neg h]
      rfl
  have hcongr : List.map ((List.countP (fun e => e.1 == x)) ∘
      (fun i => (List.range 3).map (fun j => (i, (i + (j + 1)) % n))))
      (List.range n)
      = List.map (fun i => if i = x then 3 else 0) (List.range n) := by
    apply List.map_congr_left
    intro i _
    exact hmap i
  rw [hcongr]
  clear hcongr hmap
  induction n with
  | zero => omega
  | succ m ih =>
      rw [List.range_succ, List.map_append, List.sum_append]
      by_cases hxm : x < m
      · rw [ih hxm]
        simp [show ¬(m = x) by omega]
      · have hxe : x = m := by omega
        subst hxe
        have hzero : (List.map (fun i => if i = x then 3 else 0)
            (List.range x)).sum = 0 := by
          apply List.sum_eq_zero
          intro y hy
          obtain ⟨i, hi, rfl⟩ := List.mem_map.mp hy
          rw [if_neg (show ¬i = x from (List.mem_range.mp hi).ne)]
        rw [hzero]
        simp

end Shorfin

namespace Shorfin

/-- Claim C8: under the `regular` topology with `n ≥ 4` (degree parameter
`k = 3`), every node has at least `k` incident edge entries in the degree
array (wrap-around duplicates included). -/
theorem regular_degree_ge_k (W H : ℚ) (r : Nat → ℚ) (n : Nat) (p : ℚ)
    (hn : 4 ≤ n) : ∀ x, x < n →
    3 ≤ (degreesList (createGraph W H r n p "regular")).getD x 0 := by
  intro x hx
  have hED : (createGraph W H r n p "regular").edges = regularEdges n := by
    simp [createGraph]
  have hLen : (createGraph W H r n p "regular").nodes.length = n := by
    simp [createGraph, genNodes]
  rw [degreesList, hED, hLen]
  have hrep : x < (List.replicate n 0).length := by simpa using hx
  rw [degFold_getD (regularEdges n) _ x hrep]
  have h0 : (List.replicate n (0 : Nat)).getD x 0 = 0 := by
    rw [List.getD_eq_getElem?_getD, List.getElem?_replicate]
    simp [hx]
  rw [h0, countP_regular_fst n x hx]
  omega

/-- Witness for C8 at `n = 4`: node 2 of a concretely generated regular graph
has degree at least 3. -/
theorem regular_degree_ge_k_witness :
    3 ≤ (degreesList (createGraph 800 400 (fun _ => 0) 4 0 "regular")).getD 2 0 :=
  regular_degree_ge_k 800 400 (fun _ => 0) 4 0 (by decide) 2 (by decide)

end Shorfin

namespace Shorfin

/-! ### Claim C3: edge validity per topology -/

/-- Every Erdős–Rényi pair has in-range, strictly increasing endpoints. -/
theorem mem_erPairs (n : Nat) (e : Nat × Nat) (he : e ∈ erPairs n) :
    e.1 < n ∧ e.2 < n ∧ e.1 < e.2 := by
  rw [erPairs] at he
  simp only [List.mem_flatMap, List.mem_map, List.mem_filter,
    List.mem_range, decide_eq_true_eq] at he
  obtain ⟨i, hi, j, ⟨hj, hij⟩, rfl⟩ := he
  exact ⟨hi, hj, hij⟩

/-- The kept Erdős–Rényi edges are among the pairs. -/
theorem erEdges_subset (r : Nat → ℚ) (p : ℚ) (n : Nat) :
    ∀ e ∈ erEdges r p n, e ∈ erPairs n := by
  intro e he
  rw [erEdges] at he
  obtain ⟨⟨k1, k2⟩, hke, hsome⟩ := List.mem_filterMap.mp he
  have he2 : k2 = e := by
    by_cases h : r (3 * n + k1) < p
    · simpa [h] using hsome
    · simp [h] at hsome
  have hm := List.mem_enumFrom hke
  subst he2
  rw [hm.2.2]
  exact List.getElem_mem _

/-- Wrap-around arithmetic: adding `1 ≤ m < n` to `i < n` modulo `n` never
returns to `i`. -/
theorem add_mod_ne (i m n : Nat) (hi : i < n) (hm1 : 1 ≤ m) (hmn : m < n) :
    (i + m) % n ≠ i := by
  intro h
  rcases Nat.lt_or_ge (i + m) n with hlt | hge
  · rw [Nat.mod_eq_of_lt hlt] at h
    omega
  · have hlt2 : i + m - n < n := by omega
    rw [Nat.mod_eq_sub_mod hge, Nat.mod_eq_of_lt hlt2] at h
    omega

/-- Validity of the regular branch for `n = 0` (no edges) or `n ≥ 4`. -/
theorem regularEdges_valid (n : Nat) (hn : n = 0 ∨ 4 ≤ n) :
    ∀ e ∈ regularEdges n, e.1 < n ∧ e.2 < n ∧ e.1 ≠ e.2 := by
  intro e he
  rw [regularEdges] at he
  simp only [List.mem_flatMap, List.mem_map, List.mem_range] at he
  obtain ⟨i, hi, j, hj, rfl⟩ := he
  rcases hn with rfl | hn
  · omega
  · have hpos : 0 < n := by omega
    refine ⟨hi, Nat.mod_lt _ hpos, ?_⟩
    intro h
    exact add_mod_ne i (j + 1) n hi (by omega) (by omega) h.symm

end Shorfin

namespace Shorfin

/-- Bumping an in-range index increases the array total by one. -/
theorem sum_bumpAt : ∀ (d : List Nat) (i : Nat), i < d.length →
    (bumpAt d i).sum = d.sum + 1 := by
  intro d
  induction d with
  | nil => intro i hi; simp at hi
  | cons a t ih =>
      intro i hi
      cases i with
      | zero => simp [bumpAt, List.getD]; omega
      | succ j =>
          have hj : j < t.length := by simpa using hi
          have : bumpAt (a :: t) (j + 1) = a :: bumpAt t j := by
            simp [bumpAt, List.getD]
          rw [this]
          simp [ih j hj]
          omega

/-- The preferential-attachment degree fold preserves the array length. -/
theorem degreesUpTo_length (i : Nat) (edges : List (Nat × Nat)) :
    (degreesUpTo i edges).length = i := by
  rw [degreesUpTo]
  have : ∀ (es : List (Nat × Nat)) (d : List Nat),
      (es.foldl (fun d e =>
        if e.2 < i then bumpAt (if e.1 < i then bumpAt d e.1 else d) e.2
        else (if e.1 < i then bumpAt d e.1 else d)) d).length = d.length := by
    intro es
    induction es with
    | nil => intro d; rfl
    | cons e es ih =>
        intro d
        rw [List.foldl_cons, ih]
        by_cases h1 : e.1 < i <;> by_cases h2 : e.2 < i <;>
          simp [h1, h2, length_bumpAt]
  rw [this]
  simp

/-- When every edge endpoint is below `i`, the degree array totals twice the
edge count. -/
theorem degreesUpTo_sum (i : Nat) (edges : List (Nat × Nat))
    (h : ∀ e ∈ edges, e.1 < i ∧ e.2 < i) :
    (degreesUpTo i edges).sum = 2 * edges.length := by
  rw [degreesUpTo]
  have main : ∀ (es : List (Nat × Nat)) (d : List Nat), d.length = i →
      (∀ e ∈ es, e.1 < i ∧ e.2 < i) →
      (es.foldl (fun d e =>
        if e.2 < i then bumpAt (if e.1 < i then bumpAt d e.1 else d) e.2
        else (if e.1 < i then bumpAt d e.1 else d)) d).sum
        = d.sum + 2 * es.length := by
    intro es
    induction es with
    | nil => intro d _ _; simp
    | cons e es ih =>
        intro d hd hes
        obtain ⟨h1, h2⟩ := hes e (by simp)
        rw [List.foldl_cons, if_pos h2, if_pos h1]
        have hlen1 : (bumpAt d e.1).length = i := by rw [length_bumpAt]; exact hd
        have hlen2 : (bumpAt (bumpAt d e.1) e.2).length = i := by
          rw [length_bumpAt]; exact hlen1
        rw [ih _ hlen2 (fun f hf => hes f (by simp [hf])),
          sum_bumpAt _ _ (by rw [hlen1]; exact h2),
          sum_bumpAt _ _ (by rw [hd]; exact h1)]
        simp
        omega
  rw [main edges (List.replicate i 0) (by simp) h]
  simp

/-- The weighted scan lands strictly inside the array whenever the draw is
nonnegative and below the total. -/
theorem pickIndex_lt : ∀ (l : List Nat) (rr : ℚ),
    0 ≤ rr → rr < (l.sum : Nat) → pickIndex l rr < l.length := by
  intro l
  induction l with
  | nil =>
      intro rr h0 hlt
      simp at hlt
      exact absurd h0 (not_le.mpr hlt)
  | cons d ds ih =>
      intro rr h0 hlt
      rw [pickIndex]
      by_cases h : rr > (d : ℚ)
      · rw [if_pos h]
        have hds : pickIndex ds (rr - (d : ℚ)) < ds.length := by
          apply ih
          · linarith
          · have : ((d + ds.sum : Nat) : ℚ) = (d : ℚ) + (ds.sum : Nat) := by
              push_cast; ring
            rw [List.sum_cons] at hlt
            rw [this] at hlt
            linarith
        simpa using hds
      · rw [if_neg h]
        simp

end Shorfin

namespace Shorfin

/-- Invariant propagation along a fold over `List.range' s m`. -/
theorem foldl_range'_invariant {β : Type} (P : Nat → β → Prop) (f : β → Nat → β)
    (hstep : ∀ i b, P i b → P (i + 1) (f b i)) :
    ∀ (m s : Nat) (b : β), P s b → P (s + m) (List.foldl f b (List.range' s m)) := by
  intro m
  induction m with
  | zero => intro s b hb; simpa using hb
  | succ k ih =>
      intro s b hb
      rw [List.range'_succ, List.foldl_cons]
      have h := ih (s + 1) (f b s) (hstep s b hb)
      have harith : s + 1 + k = s + (k + 1) := by omega
      rw [harith] at h
      exact h

/-- One preferential-attachment step preserves edge validity: with at least 3
valid edges below `i`, the degree total is positive, so both weighted draws
land on an existing node below `i`. -/
theorem sfStep_preserves (r : Nat → ℚ) (n : Nat)
    (hr : ∀ k, 0 ≤ r k ∧ r k < 1) (i : Nat) (edges : List (Nat × Nat))
    (h : 3 ≤ edges.length ∧ ∀ e ∈ edges, e.1 < i ∧ e.2 < i ∧ e.1 ≠ e.2) :
    3 ≤ (sfStep r n edges i).length ∧
    ∀ e ∈ sfStep r n edges i, e.1 < i + 1 ∧ e.2 < i + 1 ∧ e.1 ≠ e.2 := by
  obtain ⟨hlen, hval⟩ := h
  have hdlen : (degreesUpTo i edges).length = i := degreesUpTo_length i edges
  have hdsum : (degreesUpTo i edges).sum = 2 * edges.length :=
    degreesUpTo_sum i edges (fun e he => ⟨(hval e he).1, (hval e he).2.1⟩)
  have htot : (0 : ℚ) < (((degreesUpTo i edges).sum : Nat) : ℚ) := by
    have hp : 0 < (degreesUpTo i edges).sum := by omega
    exact_mod_cast hp
  have hpick : ∀ k, pickIndex (degreesUpTo i edges)
      (r k * (((degreesUpTo i edges).sum : Nat) : ℚ)) < i := by
    intro k
    have h0 : 0 ≤ r k * (((degreesUpTo i edges).sum : Nat) : ℚ) :=
      mul_nonneg (hr k).1 (le_of_lt htot)
    have hlt : r k * (((degreesUpTo i edges).sum : Nat) : ℚ)
        < (((degreesUpTo i edges).sum : Nat) : ℚ) := by
      have := mul_lt_mul_of_pos_right (hr k).2 htot
      simpa using this
    have hres := pickIndex_lt (degreesUpTo i edges) _ h0 hlt
    rwa [hdlen] at hres
  constructor
  · have : (sfStep r n edges i).length = edges.length + 2 := by
      simp [sfStep]
    omega
  · intro e he
    simp only [sfStep, List.mem_append, List.mem_singleton] at he
    rcases he with (he | rfl) | rfl
    · obtain ⟨ha, hb, hc⟩ := hval e he
      exact ⟨Nat.lt_succ_of_lt ha, Nat.lt_succ_of_lt hb, hc⟩
    · have hs := hpick (3 * n + 2 * (i - 3))
      exact ⟨by omega, by omega, by omega⟩
    · have hs := hpick (3 * n + 2 * (i - 3) + 1)
      exact ⟨by omega, by omega, by omega⟩

/-- Validity of the scale-free branch for `n ≥ 3`: the seed triangle is in
range and every attached edge joins the new node to an earlier one. -/
theorem sfEdges_valid (r : Nat → ℚ) (n : Nat)
    (hr : ∀ k, 0 ≤ r k ∧ r k < 1) (hn : 3 ≤ n) :
    ∀ e ∈ sfEdges r n, e.1 < n ∧ e.2 < n ∧ e.1 ≠ e.2 := by
  have main := foldl_range'_invariant
    (fun i edges => 3 ≤ edges.length ∧ ∀ e ∈ edges, e.1 < i ∧ e.2 < i ∧ e.1 ≠ e.2)
    (sfStep r n) (fun i b hb => sfStep_preserves r n hr i b hb)
    (n - 3) 3 [(0, 1), (0, 2), (1, 2)] ⟨by simp, by decide⟩
  have h3 : 3 + (n - 3) = n := by omega
  rw [h3] at main
  exact fun e he => main.2 e he

/-- Counterexample-forced amendment of claim C3: generated edges are valid
(in-range, loop-free) for the `random` topology at every `n`, for `regular`
when `n = 0` or `n ≥ 4`, and for `scale-free` when `n ≥ 3`. -/
theorem createGraph_edges_valid (W H : ℚ) (r : Nat → ℚ) (n : Nat) (p : ℚ)
    (ty : String) (hr : ∀ k, 0 ≤ r k ∧ r k < 1) (hp : 0 ≤ p ∧ p ≤ 1)
    (hty : ty = "random" ∨ (ty = "regular" ∧ (n = 0 ∨ 4 ≤ n)) ∨
      (ty = "scale-free" ∧ 3 ≤ n)) :
    ∀ e ∈ (createGraph W H r n p ty).edges, e.1 < n ∧ e.2 < n ∧ e.1 ≠ e.2 := by
  intro e he
  rcases hty with rfl | ⟨rfl, hn⟩ | ⟨rfl, hn⟩
  · have hED : (createGraph W H r n p "random").edges = erEdges r p n := by
      simp [createGraph]
    rw [hED] at he
    have hm := mem_erPairs n e (erEdges_subset r p n e he)
    exact ⟨hm.1, hm.2.1, Nat.ne_of_lt hm.2.2⟩
  · have hED : (createGraph W H r n p "regular").edges = regularEdges n := by
      simp [createGraph]
    rw [hED] at he
    exact regularEdges_valid n hn e he
  · have hED : (createGraph W H r n p "scale-free").edges = sfEdges r n := by
      simp [createGraph]
    rw [hED] at he
    exact sfEdges_valid r n hr hn e he

/-- Witness for the amended C3: the first edge of a concrete 4-node regular
graph is in range with distinct endpoints. -/
theorem createGraph_edges_valid_witness :
    (0 : Nat) < 4 ∧ (1 : Nat) < 4 ∧ (0 : Nat) ≠ 1 :=
  createGraph_edges_valid 800 400 (fun _ => 1/2) 4 (1/2) "regular"
    (fun _ => by norm_num) (by norm_num)
    (Or.inr (Or.inl ⟨rfl, by norm_num⟩)) (0, 1) (by decide)

end Shorfin
